import Mathlib

/-!
Verification of the cooperative-scheduler repository (`async_io`,
`build_your_own_async`, `event_loop` variants) against its design
specification.  The Python sources are shallowly embedded: `collections.deque`
becomes a Lean `List` used FIFO (append at the back, pop at the front),
`heapq` over `(deadline, sequence, task)` triples becomes the binary-heap
functions below over `TimerEntry`, dictionaries become association lists, and
exceptions become `Except` / `Option` results.  Monotonic time is modelled as
`Nat`: every claim settled here concerns only comparisons between deadlines,
never real-time behaviour.
-/

/-- Errors raised by the embedded code: `QueueClosed` from the AsyncQueue
variants with close, Python's `RuntimeError` from the misuse guards, and
`IndexError` from `deque.popleft()` on an empty deque. -/
inductive PyErr where
  | queueClosed
  | runtimeError
  | indexError
  deriving DecidableEq, Repr

/-- Model of `deque.popleft()`: returns the front element and the rest, or
`none` where Python raises `IndexError` (empty deque). -/
def popleft? {α : Type} : List α → Option (α × List α)
  | [] => none
  | x :: xs => some (x, xs)

/-- An entry of the `sleeping` heap: the tuple `(deadline, sequence, func)`
pushed by `call_later` / `Scheduler.sleep`.  The payload type `τ` stands for
the stored callback / coroutine. -/
structure TimerEntry (τ : Type) where
  deadline : Nat
  seq : Nat
  task : τ
  deriving DecidableEq, Repr

instance {τ : Type} [Inhabited τ] : Inhabited (TimerEntry τ) where
  default := ⟨0, 0, default⟩

/-- Python's tuple comparison `(deadline, seq, func) < (deadline', seq', func')`
restricted to its first two components.  In every heap built by the source the
sequence numbers are pairwise distinct, so the third component (the task,
which Python cannot compare) is never consulted; the embedding therefore
compares `(deadline, seq)` lexicographically. -/
def keyLt {τ : Type} (a b : TimerEntry τ) : Prop :=
  a.deadline < b.deadline ∨ (a.deadline = b.deadline ∧ a.seq < b.seq)

instance {τ : Type} (a b : TimerEntry τ) : Decidable (keyLt a b) := by
  unfold keyLt; infer_instance

/-- The non-strict companion of `keyLt`. -/
def keyLe {τ : Type} (a b : TimerEntry τ) : Prop := ¬ keyLt b a

instance {τ : Type} (a b : TimerEntry τ) : Decidable (keyLe a b) := by
  unfold keyLe; infer_instance

theorem keyLt_trans {τ : Type} {a b c : TimerEntry τ}
    (h1 : keyLt a b) (h2 : keyLt b c) : keyLt a c := by
  unfold keyLt at *; omega

theorem keyLe_trans {τ : Type} {a b c : TimerEntry τ}
    (h1 : keyLe a b) (h2 : keyLe b c) : keyLe a c := by
  unfold keyLe keyLt at *; omega

theorem keyLe_of_not_keyLt {τ : Type} {a b : TimerEntry τ}
    (h : ¬ keyLt a b) : keyLe b a := h

theorem keyLe_of_keyLt {τ : Type} {a b : TimerEntry τ}
    (h : keyLt a b) : keyLe a b := by
  unfold keyLe keyLt at *; omega

theorem keyLe_refl {τ : Type} (a : TimerEntry τ) : keyLe a a := by
  unfold keyLe keyLt; omega

theorem keyLt_of_keyLe_of_ne {τ : Type} {a b : TimerEntry τ}
    (h : keyLe a b) (hne : a.deadline ≠ b.deadline ∨ a.seq ≠ b.seq) :
    keyLt a b := by
  unfold keyLe keyLt at *; omega

/-!
Embedding of the CPython `heapq` functions used by the schedulers
(`heappush`, `heappop` with the internal `_siftdown` / `_siftup`), specialised
to lists of `TimerEntry`.
-/

/-- Embedding of `heapq._siftdown(heap, startpos, pos)`: bubble the element at
`pos` towards the root while it is smaller than its parent.  CPython delays
writing `newitem` until the loop exits; the embedding performs the equivalent
swap at every level, which produces the same final array whenever the entry at
`pos` equals `newitem` on entry — true at both call sites (`heappush` appends
`newitem` at the end, `_siftup` stores it at `pos` before calling). -/
def siftdown {τ : Type} [Inhabited τ] (newitem : TimerEntry τ)
    (v : List (TimerEntry τ)) (startpos pos : Nat) : List (TimerEntry τ) :=
  if h : startpos < pos then
    let parentpos := (pos - 1) / 2
    let parent := v.getD parentpos default
    if keyLt newitem parent then
      siftdown newitem ((v.set pos parent).set parentpos newitem) startpos parentpos
    else v
  else v
termination_by pos
decreasing_by omega

/-- Embedding of `heapq.heappush(heap, item)`: append the item and sift it
down towards the root from the last position. -/
def heappush {τ : Type} [Inhabited τ] (heap : List (TimerEntry τ))
    (item : TimerEntry τ) : List (TimerEntry τ) :=
  siftdown item (heap ++ [item]) 0 heap.length

/-- Child selection inside `heapq._siftup`: the right child is preferred
exactly when it exists and the left child is not smaller (the source's
`if rightpos < endpos and not heap[childpos] < heap[rightpos]`). -/
def childSel {τ : Type} [Inhabited τ] (u : List (TimerEntry τ)) (pos : Nat) : Nat :=
  if 2 * pos + 2 < u.length ∧
      ¬ keyLt (u.getD (2 * pos + 1) default) (u.getD (2 * pos + 2) default)
    then 2 * pos + 2 else 2 * pos + 1

/-- The descent loop of `heapq._siftup`: repeatedly move the smaller child up
into the current position, following the hole down to a leaf; returns the
final array (hole contents stale) together with the hole's final position. -/
def siftupWalk {τ : Type} [Inhabited τ] (u : List (TimerEntry τ)) (pos : Nat) :
    List (TimerEntry τ) × Nat :=
  if h : 2 * pos + 1 < u.length then
    siftupWalk (u.set pos (u.getD (childSel u pos) default)) (childSel u pos)
  else (u, pos)
termination_by u.length - pos
decreasing_by simp only [List.length_set]; unfold childSel; split <;> omega

/-- Embedding of `heapq._siftup(heap, pos)`: move the smaller child up until a
leaf is reached, place the displaced item there, then sift it down towards the
root (CPython's bottom-up deletion). -/
def siftup {τ : Type} [Inhabited τ] (heap : List (TimerEntry τ)) (pos : Nat) :
    List (TimerEntry τ) :=
  let newitem := heap.getD pos default
  let walked := siftupWalk heap pos
  siftdown newitem (walked.1.set walked.2 newitem) pos walked.2

/-- Embedding of `heapq.heappop(heap)`: remove and return the root; `none`
models the `IndexError` on an empty heap.  CPython pops the last element
(`lastelt`); if the heap is still non-empty it returns the old root, writes
`lastelt` at position 0 and calls `_siftup(heap, 0)`. -/
def heappop {τ : Type} [Inhabited τ] (heap : List (TimerEntry τ)) :
    Option (TimerEntry τ × List (TimerEntry τ)) :=
  match heap with
  | [] => none
  | [x] => some (x, [])
  | x :: y :: ys =>
    some (x, siftup ((y :: ys).getLast (List.cons_ne_nil y ys)
      :: (y :: ys).dropLast) 0)

/-- Binary-heap invariant of the array representation: every non-root entry
is `keyLe`-above its parent at index `(i-1)/2`. -/
def HeapInv {τ : Type} [Inhabited τ] (v : List (TimerEntry τ)) : Prop :=
  ∀ i, 0 < i → i < v.length →
    keyLe (v.getD ((i - 1) / 2) default) (v.getD i default)

/-!
Index-level helper lemmas for the heap proofs.
-/

theorem getD_eq_getElem {τ : Type} [Inhabited τ] {v : List (TimerEntry τ)}
    {i : Nat} (h : i < v.length) : v.getD i default = v[i] := by
  simp [List.getD_eq_getElem?_getD, List.getElem?_eq_getElem h]

theorem getD_set {τ : Type} [Inhabited τ] (v : List (TimerEntry τ))
    (i j : Nat) (a : TimerEntry τ) :
    (v.set i a).getD j default =
      if i = j ∧ i < v.length then a else v.getD j default := by
  by_cases hlen : i < v.length
  · by_cases hij : i = j
    · subst hij
      simp [List.getD_eq_getElem?_getD, List.getElem?_set, hlen]
    · simp [List.getD_eq_getElem?_getD, List.getElem?_set, hij, hlen]
  · rw [List.set_eq_of_length_le (by omega)]
    simp only [hlen, and_false, if_false]

/-- Exchanging the contents of two distinct positions yields a permutation. -/
theorem swap_perm {τ : Type} [Inhabited τ] [DecidableEq τ]
    (v : List (TimerEntry τ)) (i j : Nat) (a b : TimerEntry τ)
    (hi : i < v.length) (hj : j < v.length) (hij : i ≠ j)
    (ha : v.getD i default = a) (hb : v.getD j default = b) :
    ((v.set i b).set j a).Perm v := by
  rw [List.perm_iff_count]
  intro x
  have hj' : j < (v.set i b).length := by simpa using hj
  have hvi : v[i] = a := by rw [← getD_eq_getElem hi, ha]
  have hvj : v[j] = b := by rw [← getD_eq_getElem hj, hb]
  have hsj : (v.set i b)[j] = b := by
    rw [List.getElem_set]
    simp [hij, hvj]
  have hmem_a : a ∈ v := by rw [← hvi]; exact List.getElem_mem hi
  have hca : a = x → 0 < List.count x v := by
    intro hax; subst hax; exact List.count_pos_iff.mpr hmem_a
  rw [List.count_set a x _ j hj', List.count_set b x _ i hi, hsj, hvi]
  simp only [beq_iff_eq]
  rcases Decidable.em (a = x) with hax | hax
  · have hpos := hca hax
    split_ifs <;> omega
  · split_ifs <;> omega

theorem siftdown_stop_le {τ : Type} [Inhabited τ] (newitem : TimerEntry τ)
    (v : List (TimerEntry τ)) (startpos pos : Nat) (h : ¬ startpos < pos) :
    siftdown newitem v startpos pos = v := by
  rw [siftdown]; simp [h]

theorem siftdown_stop_ge {τ : Type} [Inhabited τ] (newitem : TimerEntry τ)
    (v : List (TimerEntry τ)) (startpos pos : Nat) (h : startpos < pos)
    (hk : ¬ keyLt newitem (v.getD ((pos - 1) / 2) default)) :
    siftdown newitem v startpos pos = v := by
  rw [siftdown, dif_pos h]; exact if_neg hk

theorem siftdown_step {τ : Type} [Inhabited τ] (newitem : TimerEntry τ)
    (v : List (TimerEntry τ)) (startpos pos : Nat) (h : startpos < pos)
    (hk : keyLt newitem (v.getD ((pos - 1) / 2) default)) :
    siftdown newitem v startpos pos =
      siftdown newitem
        ((v.set pos (v.getD ((pos - 1) / 2) default)).set ((pos - 1) / 2) newitem)
        startpos ((pos - 1) / 2) := by
  rw [siftdown, dif_pos h]; exact if_pos hk

theorem siftdown_length {τ : Type} [Inhabited τ] (newitem : TimerEntry τ) :
    ∀ pos startpos (v : List (TimerEntry τ)),
      (siftdown newitem v startpos pos).length = v.length := by
  intro pos
  induction pos using Nat.strong_induction_on with
  | _ pos ih =>
    intro startpos v
    by_cases h : startpos < pos
    · by_cases hk : keyLt newitem (v.getD ((pos - 1) / 2) default)
      · rw [siftdown_step newitem v startpos pos h hk,
          ih ((pos - 1) / 2) (by omega)]
        simp
      · rw [siftdown_stop_ge newitem v startpos pos h hk]
    · rw [siftdown_stop_le newitem v startpos pos h]

theorem siftdown_perm {τ : Type} [Inhabited τ] [DecidableEq τ]
    (newitem : TimerEntry τ) :
    ∀ pos startpos (v : List (TimerEntry τ)), pos < v.length →
      v.getD pos default = newitem →
      (siftdown newitem v startpos pos).Perm v := by
  intro pos
  induction pos using Nat.strong_induction_on with
  | _ pos ih =>
    intro startpos v hlen hitem
    by_cases h : startpos < pos
    · by_cases hk : keyLt newitem (v.getD ((pos - 1) / 2) default)
      · rw [siftdown_step newitem v startpos pos h hk]
        have hpp : (pos - 1) / 2 < pos := by omega
        have hpplen : (pos - 1) / 2 < v.length := by omega
        have hne : pos ≠ (pos - 1) / 2 := by omega
        have hlen2 :
            ((v.set pos (v.getD ((pos - 1) / 2) default)).set
              ((pos - 1) / 2) newitem).length = v.length := by simp
        have hget2 :
            ((v.set pos (v.getD ((pos - 1) / 2) default)).set
              ((pos - 1) / 2) newitem).getD ((pos - 1) / 2) default = newitem := by
          rw [getD_set]
          simp [hpplen]
        refine List.Perm.trans
          (ih ((pos - 1) / 2) hpp startpos _ (by omega) hget2) ?_
        exact swap_perm v pos ((pos - 1) / 2) newitem
          (v.getD ((pos - 1) / 2) default) hlen hpplen hne hitem rfl
      · rw [siftdown_stop_ge newitem v startpos pos h hk]
    · rw [siftdown_stop_le newitem v startpos pos h]

theorem getD_set_set {τ : Type} [Inhabited τ] (v : List (TimerEntry τ))
    (p q j : Nat) (a b : TimerEntry τ)
    (hp : p < v.length) (hq : q < v.length) (hpq : p ≠ q) :
    ((v.set p b).set q a).getD j default =
      if j = q then a else if j = p then b else v.getD j default := by
  rw [getD_set, getD_set]
  simp only [List.length_set]
  rcases eq_or_ne q j with rfl | h1
  · simp [hq]
  · rcases eq_or_ne p j with rfl | h2
    · simp [hp, h1, Ne.symm h1]
    · simp [h1, h2, Ne.symm h1, Ne.symm h2]

/-- Precondition under which `_siftdown` restores the heap invariant: the
array is a heap except possibly on the edge from `pos` up to its parent, and
the entry at `pos`'s grandparent is already below `pos`'s children. -/
def SdInv {τ : Type} [Inhabited τ] (v : List (TimerEntry τ)) (pos : Nat) : Prop :=
  (∀ i, 0 < i → i < v.length → i ≠ pos →
    keyLe (v.getD ((i - 1) / 2) default) (v.getD i default))
  ∧ (0 < pos → ∀ c, 0 < c → c < v.length → (c - 1) / 2 = pos →
      keyLe (v.getD ((pos - 1) / 2) default) (v.getD c default))

theorem siftdown_inv {τ : Type} [Inhabited τ] (newitem : TimerEntry τ) :
    ∀ pos (v : List (TimerEntry τ)), pos < v.length →
      v.getD pos default = newitem → SdInv v pos →
      HeapInv (siftdown newitem v 0 pos) := by
  intro pos
  induction pos using Nat.strong_induction_on with
  | _ pos ih =>
    intro v hlen hitem hsd
    rcases Nat.eq_zero_or_pos pos with rfl | hpos
    · rw [siftdown_stop_le newitem v 0 0 (by omega)]
      intro i hi hilen
      exact hsd.1 i hi hilen (by omega)
    · by_cases hk : keyLt newitem (v.getD ((pos - 1) / 2) default)
      case neg =>
        rw [siftdown_stop_ge newitem v 0 pos (by omega) hk]
        intro i hi hilen
        rcases eq_or_ne i pos with rfl | hip
        · rw [hitem]
          exact keyLe_of_not_keyLt hk
        · exact hsd.1 i hi hilen hip
      case pos =>
        have hpp_lt : (pos - 1) / 2 < pos := by omega
        have hpplen : (pos - 1) / 2 < v.length := by omega
        have hval : ∀ j,
            ((v.set pos (v.getD ((pos - 1) / 2) default)).set
              ((pos - 1) / 2) newitem).getD j default =
            if j = (pos - 1) / 2 then newitem
            else if j = pos then v.getD ((pos - 1) / 2) default
            else v.getD j default :=
          fun j => getD_set_set v pos ((pos - 1) / 2) j newitem
            (v.getD ((pos - 1) / 2) default) hlen hpplen (by omega)
        rw [siftdown_step newitem v 0 pos (by omega) hk]
        apply ih ((pos - 1) / 2) hpp_lt
        · simpa using hpplen
        · rw [hval]
          simp
        · constructor
          · intro i hi hilen' hip
            have hilen : i < v.length := by simpa using hilen'
            rw [hval, hval]
            rcases eq_or_ne i pos with heq | hipos
            · rw [heq, if_pos rfl, if_neg (by omega : ¬ pos = (pos - 1) / 2),
                if_pos rfl]
              exact keyLe_of_keyLt hk
            · rw [if_neg hip, if_neg hipos]
              rcases eq_or_ne ((i - 1) / 2) pos with hchild | hnc
              · rw [if_neg (by omega : ¬ (i - 1) / 2 = (pos - 1) / 2),
                  if_pos hchild]
                exact hsd.2 hpos i hi hilen hchild
              · rcases eq_or_ne ((i - 1) / 2) ((pos - 1) / 2) with hsib | hns
                · rw [if_pos hsib]
                  refine keyLe_trans (keyLe_of_keyLt hk) ?_
                  have := hsd.1 i hi hilen hipos
                  rwa [hsib] at this
                · rw [if_neg hns, if_neg hnc]
                  exact hsd.1 i hi hilen hipos
          · intro hpp_pos c hc hclen' hcpp
            have hclen : c < v.length := by simpa using hclen'
            have hcgt : (pos - 1) / 2 < c := by omega
            rw [hval, hval]
            rw [if_neg (by omega : ¬ ((pos - 1) / 2 - 1) / 2 = (pos - 1) / 2),
              if_neg (by omega : ¬ ((pos - 1) / 2 - 1) / 2 = pos),
              if_neg (by omega : ¬ c = (pos - 1) / 2)]
            have hedge : keyLe (v.getD (((pos - 1) / 2 - 1) / 2) default)
                (v.getD ((pos - 1) / 2) default) :=
              hsd.1 ((pos - 1) / 2) hpp_pos hpplen (by omega)
            rcases eq_or_ne c pos with heq | hcpos
            · rw [heq, if_pos rfl]
              exact hedge
            · rw [if_neg hcpos]
              refine keyLe_trans hedge ?_
              have := hsd.1 c hc hclen hcpos
              rwa [hcpp] at this

theorem getD_append_lt {τ : Type} [Inhabited τ] (l : List (TimerEntry τ))
    (x : TimerEntry τ) (j : Nat) (h : j < l.length) :
    (l ++ [x]).getD j default = l.getD j default := by
  rw [List.getD_eq_getElem?_getD, List.getD_eq_getElem?_getD,
    List.getElem?_append_left h]

theorem getD_append_len {τ : Type} [Inhabited τ] (l : List (TimerEntry τ))
    (x : TimerEntry τ) : (l ++ [x]).getD l.length default = x := by
  rw [List.getD_eq_getElem?_getD, List.getElem?_append_right (le_refl _)]
  simp

/-- Pushing onto a valid heap preserves the heap invariant. -/
theorem heappush_inv {τ : Type} [Inhabited τ] {heap : List (TimerEntry τ)}
    {item : TimerEntry τ} (hinv : HeapInv heap) : HeapInv (heappush heap item) := by
  unfold heappush
  apply siftdown_inv
  · simp
  · exact getD_append_len heap item
  · constructor
    · intro i hi hilen hip
      have hilt : i < heap.length := by
        simp only [List.length_append, List.length_cons, List.length_nil] at hilen
        omega
      have hplt : (i - 1) / 2 < heap.length := by omega
      rw [getD_append_lt _ _ _ hplt, getD_append_lt _ _ _ hilt]
      exact hinv i hi hilt
    · intro hpos2 c hc hclen hcpp
      exfalso
      simp only [List.length_append, List.length_cons, List.length_nil] at hclen
      omega

theorem heappush_perm {τ : Type} [Inhabited τ] [DecidableEq τ]
    (heap : List (TimerEntry τ)) (item : TimerEntry τ) :
    (heappush heap item).Perm (item :: heap) := by
  unfold heappush
  refine List.Perm.trans
    (siftdown_perm item heap.length 0 (heap ++ [item]) (by simp)
      (getD_append_len heap item)) ?_
  exact List.perm_append_singleton item heap

theorem heappush_length {τ : Type} [Inhabited τ] (heap : List (TimerEntry τ))
    (item : TimerEntry τ) :
    (heappush heap item).length = heap.length + 1 := by
  unfold heappush
  rw [siftdown_length]
  simp

theorem childSel_cases {τ : Type} [Inhabited τ] (u : List (TimerEntry τ))
    (pos : Nat) : childSel u pos = 2 * pos + 1 ∨ childSel u pos = 2 * pos + 2 := by
  unfold childSel; split
  · right; rfl
  · left; rfl

theorem childSel_lt_length {τ : Type} [Inhabited τ] (u : List (TimerEntry τ))
    (pos : Nat) (h : 2 * pos + 1 < u.length) : childSel u pos < u.length := by
  unfold childSel; split <;> omega

theorem childSel_min {τ : Type} [Inhabited τ] (u : List (TimerEntry τ))
    (pos : Nat) (h : 2 * pos + 1 < u.length) (c : Nat)
    (hc : c = 2 * pos + 1 ∨ (c = 2 * pos + 2 ∧ c < u.length)) :
    keyLe (u.getD (childSel u pos) default) (u.getD c default) := by
  unfold childSel
  split
  case isTrue hcond =>
    rcases hc with rfl | ⟨rfl, hclen⟩
    · exact keyLe_of_not_keyLt hcond.2
    · exact keyLe_refl _
  case isFalse hcond =>
    rcases hc with rfl | ⟨rfl, hclen⟩
    · exact keyLe_refl _
    · rcases Decidable.not_and_iff_or_not.mp hcond with h1 | h2
      · omega
      · exact keyLe_of_keyLt (Decidable.not_not.mp h2)

theorem siftupWalk_stop {τ : Type} [Inhabited τ] (u : List (TimerEntry τ))
    (pos : Nat) (h : ¬ 2 * pos + 1 < u.length) : siftupWalk u pos = (u, pos) := by
  rw [siftupWalk, dif_neg h]

theorem siftupWalk_step {τ : Type} [Inhabited τ] (u : List (TimerEntry τ))
    (pos : Nat) (h : 2 * pos + 1 < u.length) :
    siftupWalk u pos =
      siftupWalk (u.set pos (u.getD (childSel u pos) default)) (childSel u pos) := by
  rw [siftupWalk, dif_pos h]

/-- Invariant of the `_siftup` descent: the array is a heap on every edge not
touching the hole `p`, and the hole's parent is already below the hole's
children. -/
def HoleInv {τ : Type} [Inhabited τ] (u : List (TimerEntry τ)) (p : Nat) : Prop :=
  (∀ i, 0 < i → i < u.length → i ≠ p → (i - 1) / 2 ≠ p →
    keyLe (u.getD ((i - 1) / 2) default) (u.getD i default))
  ∧ (0 < p → ∀ c, 0 < c → c < u.length → (c - 1) / 2 = p →
      keyLe (u.getD ((p - 1) / 2) default) (u.getD c default))

theorem siftupWalk_spec {τ : Type} [Inhabited τ] [DecidableEq τ] :
    ∀ (n : Nat) (u : List (TimerEntry τ)) (pos : Nat), u.length - pos = n →
      pos < u.length → HoleInv u pos →
      (siftupWalk u pos).1.length = u.length ∧
      pos ≤ (siftupWalk u pos).2 ∧
      (siftupWalk u pos).2 < u.length ∧
      ¬ (2 * (siftupWalk u pos).2 + 1 < u.length) ∧
      HoleInv (siftupWalk u pos).1 (siftupWalk u pos).2 ∧
      (∀ x, ((siftupWalk u pos).1.set (siftupWalk u pos).2 x).Perm (u.set pos x)) := by
  intro n
  induction n using Nat.strong_induction_on with
  | _ n ih =>
    intro u pos hn hpos hhole
    by_cases h : 2 * pos + 1 < u.length
    case neg =>
      rw [siftupWalk_stop u pos h]
      exact ⟨rfl, le_refl _, hpos, h, hhole, fun x => List.Perm.refl _⟩
    case pos =>
      rw [siftupWalk_step u pos h]
      have hcl := childSel_lt_length u pos h
      have hcgt : pos < childSel u pos := by
        rcases childSel_cases u pos with hc | hc <;> omega
      have hchild : (childSel u pos - 1) / 2 = pos := by
        rcases childSel_cases u pos with hc | hc <;> omega
      have hlen' : (u.set pos (u.getD (childSel u pos) default)).length = u.length := by
        simp
      have hval : ∀ j,
          (u.set pos (u.getD (childSel u pos) default)).getD j default =
          if pos = j then u.getD (childSel u pos) default else u.getD j default := by
        intro j
        rw [getD_set]
        rcases eq_or_ne pos j with heq | hj
        · simp [heq, hpos, heq ▸ hpos]
        · simp [hj]
      have hhole' :
          HoleInv (u.set pos (u.getD (childSel u pos) default)) (childSel u pos) := by
        constructor
        · intro i hi hilen hic hpic
          rw [hlen'] at hilen
          rw [hval, hval]
          rcases eq_or_ne i pos with heq | hipos
          · have hp0 : 0 < pos := heq ▸ hi
            rw [heq, if_neg (by omega : ¬ pos = (pos - 1) / 2), if_pos rfl]
            exact hhole.2 hp0 (childSel u pos) (by omega) hcl hchild
          · rcases eq_or_ne ((i - 1) / 2) pos with hpi | hnpi
            · rw [if_pos hpi.symm, if_neg (Ne.symm hipos)]
              have hcase : i = 2 * pos + 1 ∨ (i = 2 * pos + 2 ∧ i < u.length) := by
                omega
              exact childSel_min u pos h i hcase
            · rw [if_neg (fun hh => hnpi hh.symm), if_neg (Ne.symm hipos)]
              exact hhole.1 i hi hilen hipos hnpi
        · intro hcpos0 c hc hclen hccp
          rw [hlen'] at hclen
          rw [hval, hval, hchild, if_pos rfl]
          have hcne : ¬ pos = c := by omega
          rw [if_neg hcne]
          have hfar : (c - 1) / 2 ≠ pos := by omega
          have hstep := hhole.1 c hc hclen (by omega) hfar
          rwa [hccp] at hstep
      have hn' : (u.set pos (u.getD (childSel u pos) default)).length
          - childSel u pos < n := by
        rw [hlen']; omega
      obtain ⟨ihl, ihge, ihlt, ihleaf, ihhole, ihperm⟩ :=
        ih _ hn' (u.set pos (u.getD (childSel u pos) default)) (childSel u pos) rfl
          (by rw [hlen']; exact hcl) hhole'
      rw [hlen'] at ihlt ihleaf
      refine ⟨by rw [ihl, hlen'], by omega, ihlt, ihleaf, ihhole, ?_⟩
      intro x
      refine (ihperm x).trans ?_
      have hBp : (u.set pos x).getD pos default = x := by
        rw [getD_set]; simp [hpos]
      have hBc : (u.set pos x).getD (childSel u pos) default
          = u.getD (childSel u pos) default := by
        rw [getD_set]
        simp [show ¬ (pos = childSel u pos ∧ pos < u.length) from fun hh => by omega]
      have hset : (u.set pos x).set pos (u.getD (childSel u pos) default)
          = u.set pos (u.getD (childSel u pos) default) :=
        List.set_set x (u.getD (childSel u pos) default) u pos
      have hsw := swap_perm (u.set pos x) pos (childSel u pos) x
        (u.getD (childSel u pos) default) (by simpa using hpos) (by simpa using hcl)
        (by omega) hBp hBc
      rw [hset] at hsw
      exact hsw

theorem siftupWalk_length {τ : Type} [Inhabited τ] :
    ∀ (n : Nat) (u : List (TimerEntry τ)) (pos : Nat), u.length - pos = n →
      (siftupWalk u pos).1.length = u.length := by
  intro n
  induction n using Nat.strong_induction_on with
  | _ n ih =>
    intro u pos hn
    by_cases h : 2 * pos + 1 < u.length
    · rw [siftupWalk_step u pos h]
      have hcgt : pos < childSel u pos := by
        rcases childSel_cases u pos with hc | hc <;> omega
      have hlen' : (u.set pos (u.getD (childSel u pos) default)).length
          = u.length := by simp
      rw [ih ((u.set pos (u.getD (childSel u pos) default)).length - childSel u pos)
        (by rw [hlen']; omega) _ _ rfl, hlen']
    · rw [siftupWalk_stop u pos h]

theorem siftup_length {τ : Type} [Inhabited τ] (u : List (TimerEntry τ))
    (pos : Nat) : (siftup u pos).length = u.length := by
  unfold siftup
  rw [siftdown_length, List.length_set, siftupWalk_length (u.length - pos) u pos rfl]

theorem heappop_length {τ : Type} [Inhabited τ] {heap rest : List (TimerEntry τ)}
    {e : TimerEntry τ} (hp : heappop heap = some (e, rest)) :
    rest.length + 1 = heap.length := by
  match heap with
  | [] => simp [heappop] at hp
  | [x] =>
    simp only [heappop, Option.some.injEq, Prod.mk.injEq] at hp
    rw [← hp.2]
    rfl
  | x :: y :: ys =>
    simp only [heappop, Option.some.injEq, Prod.mk.injEq] at hp
    rw [← hp.2, siftup_length]
    simp

/-- The root of a valid heap is a lower bound for every position. -/
theorem heapRoot_min {τ : Type} [Inhabited τ] {h : List (TimerEntry τ)}
    (hinv : HeapInv h) :
    ∀ i, i < h.length → keyLe (h.getD 0 default) (h.getD i default) := by
  intro i
  induction i using Nat.strong_induction_on with
  | _ i ih =>
    intro hi
    rcases Nat.eq_zero_or_pos i with rfl | hpos
    · exact keyLe_refl _
    · exact keyLe_trans (ih ((i - 1) / 2) (by omega) (by omega)) (hinv i hpos hi)

theorem heapRoot_min_mem {τ : Type} [Inhabited τ] {h : List (TimerEntry τ)}
    (hinv : HeapInv h) : ∀ x ∈ h, keyLe (h.getD 0 default) x := by
  intro x hx
  obtain ⟨i, hi, rfl⟩ := List.mem_iff_getElem.mp hx
  rw [← getD_eq_getElem hi]
  exact heapRoot_min hinv i hi

theorem siftup_zero_spec {τ : Type} [Inhabited τ] [DecidableEq τ]
    (u : List (TimerEntry τ)) (h0 : 0 < u.length) (hhole : HoleInv u 0) :
    HeapInv (siftup u 0) ∧ (siftup u 0).Perm (u.set 0 (u.getD 0 default)) := by
  obtain ⟨hl, hge, hlt, hleaf, hholeW, hperm⟩ :=
    siftupWalk_spec (u.length - 0) u 0 rfl h0 hhole
  have hsu : siftup u 0 =
      siftdown (u.getD 0 default)
        ((siftupWalk u 0).1.set (siftupWalk u 0).2 (u.getD 0 default)) 0
        (siftupWalk u 0).2 := rfl
  have hqw : (siftupWalk u 0).2 < (siftupWalk u 0).1.length := by rw [hl]; exact hlt
  have hvlen : ((siftupWalk u 0).1.set (siftupWalk u 0).2
      (u.getD 0 default)).length = u.length := by rw [List.length_set, hl]
  have hvq : ((siftupWalk u 0).1.set (siftupWalk u 0).2
      (u.getD 0 default)).getD (siftupWalk u 0).2 default = u.getD 0 default := by
    rw [getD_set]
    simp [hqw]
  have hsd : SdInv ((siftupWalk u 0).1.set (siftupWalk u 0).2
      (u.getD 0 default)) (siftupWalk u 0).2 := by
    constructor
    · intro i hi hilen hiq
      rw [hvlen] at hilen
      have hpiq : (i - 1) / 2 ≠ (siftupWalk u 0).2 := by omega
      rw [getD_set, getD_set]
      rw [if_neg (fun hh => hpiq hh.1.symm), if_neg (fun hh => hiq hh.1.symm)]
      exact hholeW.1 i hi (by rw [hl]; exact hilen) hiq hpiq
    · intro hq0 c hc hclen hcq
      rw [hvlen] at hclen
      exact absurd hcq (by omega)
  constructor
  · rw [hsu]
    exact siftdown_inv (u.getD 0 default) (siftupWalk u 0).2 _
      (by rw [hvlen]; exact hlt) hvq hsd
  · rw [hsu]
    exact (siftdown_perm (u.getD 0 default) (siftupWalk u 0).2 0 _
      (by rw [hvlen]; exact hlt) hvq).trans (hperm (u.getD 0 default))

/-- Popping from a valid non-empty heap returns the minimum entry, and the
remaining entries form a valid heap that is a permutation of the rest. -/
theorem heappop_spec {τ : Type} [Inhabited τ] [DecidableEq τ]
    {heap rest : List (TimerEntry τ)} {e : TimerEntry τ}
    (hinv : HeapInv heap) (hp : heappop heap = some (e, rest)) :
    HeapInv rest ∧ (e :: rest).Perm heap ∧ (∀ x ∈ heap, keyLe e x) := by
  match heap with
  | [] => simp [heappop] at hp
  | [x] =>
    simp only [heappop, Option.some.injEq, Prod.mk.injEq] at hp
    obtain ⟨rfl, rfl⟩ := hp
    refine ⟨?_, List.Perm.refl _, ?_⟩
    · intro i hi hilen
      simp at hilen
    · intro y hy
      simp at hy
      subst hy
      exact keyLe_refl _
  | x :: y :: ys =>
    simp only [heappop, Option.some.injEq, Prod.mk.injEq] at hp
    obtain ⟨rfl, hrest⟩ := hp
    have hysplit : (y :: ys).dropLast ++ [(y :: ys).getLast (List.cons_ne_nil y ys)]
        = y :: ys := List.dropLast_append_getLast (List.cons_ne_nil y ys)
    have hulen : ((y :: ys).getLast (List.cons_ne_nil y ys)
        :: (y :: ys).dropLast).length = ys.length + 1 := by
      simp
    have hagree : ∀ j, 0 < j → j < ys.length + 1 →
        ((y :: ys).getLast (List.cons_ne_nil y ys)
          :: (y :: ys).dropLast).getD j default
        = (x :: y :: ys).getD j default := by
      intro j hj hjlen
      match j, hj with
      | j' + 1, _ =>
        have hdl : (y :: ys).dropLast.length = ys.length := by simp
        have hj' : j' < (y :: ys).dropLast.length := by omega
        calc ((y :: ys).getLast (List.cons_ne_nil y ys)
              :: (y :: ys).dropLast).getD (j' + 1) default
            = (y :: ys).dropLast.getD j' default := by
              simp [List.getD_cons_succ]
          _ = ((y :: ys).dropLast
              ++ [(y :: ys).getLast (List.cons_ne_nil y ys)]).getD j' default := by
              rw [getD_append_lt _ _ _ hj']
          _ = (y :: ys).getD j' default := by rw [hysplit]
          _ = (x :: y :: ys).getD (j' + 1) default := by
              simp [List.getD_cons_succ]
    have hhole : HoleInv ((y :: ys).getLast (List.cons_ne_nil y ys)
        :: (y :: ys).dropLast) 0 := by
      constructor
      · intro i hi hilen hi0 hpi0
        rw [hulen] at hilen
        rw [hagree i hi hilen, hagree ((i - 1) / 2) (by omega) (by omega)]
        exact hinv i hi (by simp; omega)
      · intro h00
        exact absurd h00 (by omega)
    obtain ⟨hrinv, hrperm⟩ := siftup_zero_spec _ (by rw [hulen]; omega) hhole
    have hset0 : ((y :: ys).getLast (List.cons_ne_nil y ys)
        :: (y :: ys).dropLast).set 0
        (((y :: ys).getLast (List.cons_ne_nil y ys)
          :: (y :: ys).dropLast).getD 0 default)
        = (y :: ys).getLast (List.cons_ne_nil y ys) :: (y :: ys).dropLast := by
      simp [List.set]
    rw [hset0] at hrperm
    subst hrest
    constructor
    · exact hrinv
    constructor
    · refine List.Perm.cons x ?_
      refine hrperm.trans ?_
      refine List.Perm.trans ?_ (by rw [hysplit] : ((y :: ys).dropLast
        ++ [(y :: ys).getLast (List.cons_ne_nil y ys)]).Perm (y :: ys))
      exact (List.perm_append_singleton _ _).symm
    · intro z hz
      have hroot : (x :: y :: ys).getD 0 default = x := by simp
      have := heapRoot_min_mem hinv z hz
      rwa [hroot] at this

/-- Repeatedly popping the heap until empty (the order in which `run` resumes
a fixed set of sleeping tasks when nothing else is ready). -/
def popAll {τ : Type} [Inhabited τ] (heap : List (TimerEntry τ)) :
    List (TimerEntry τ) :=
  match hp : heappop heap with
  | none => []
  | some er => er.1 :: popAll er.2
termination_by heap.length
decreasing_by have := heappop_length hp; omega

theorem popAll_of_none {τ : Type} [Inhabited τ] {heap : List (TimerEntry τ)}
    (hp : heappop heap = none) : popAll heap = [] := by
  rw [popAll]
  split
  · rfl
  · rename_i er heq
    rw [hp] at heq
    cases heq

theorem popAll_of_some {τ : Type} [Inhabited τ] {heap rest : List (TimerEntry τ)}
    {e : TimerEntry τ} (hp : heappop heap = some (e, rest)) :
    popAll heap = e :: popAll rest := by
  rw [popAll]
  split
  · rename_i heq
    rw [hp] at heq
    cases heq
  · rename_i er heq
    rw [hp] at heq
    cases heq
    rfl

theorem heappop_none_iff {τ : Type} [Inhabited τ] {heap : List (TimerEntry τ)} :
    heappop heap = none ↔ heap = [] := by
  constructor
  · intro hp
    match heap with
    | [] => rfl
    | [x] => simp [heappop] at hp
    | x :: y :: ys => simp [heappop] at hp
  · intro h
    subst h
    rfl

theorem popAll_perm {τ : Type} [Inhabited τ] [DecidableEq τ] :
    ∀ (n : Nat) (heap : List (TimerEntry τ)), heap.length = n → HeapInv heap →
      (popAll heap).Perm heap := by
  intro n
  induction n using Nat.strong_induction_on with
  | _ n ih =>
    intro heap hn hinv
    cases hp : heappop heap with
    | none =>
      rw [popAll_of_none hp, heappop_none_iff.mp hp]
    | some er =>
      obtain ⟨e, rest⟩ := er
      obtain ⟨hrinv, hrperm, _⟩ := heappop_spec hinv hp
      have hlen := heappop_length hp
      rw [popAll_of_some hp]
      exact (List.Perm.cons e (ih rest.length (by omega) rest rfl hrinv)).trans hrperm

/-- Popping a valid heap to exhaustion yields a `keyLe`-sorted sequence. -/
theorem popAll_sorted {τ : Type} [Inhabited τ] [DecidableEq τ] :
    ∀ (n : Nat) (heap : List (TimerEntry τ)), heap.length = n → HeapInv heap →
      List.Pairwise keyLe (popAll heap) := by
  intro n
  induction n using Nat.strong_induction_on with
  | _ n ih =>
    intro heap hn hinv
    cases hp : heappop heap with
    | none =>
      rw [popAll_of_none hp]
      exact List.Pairwise.nil
    | some er =>
      obtain ⟨e, rest⟩ := er
      obtain ⟨hrinv, hrperm, hmin⟩ := heappop_spec hinv hp
      have hlen := heappop_length hp
      rw [popAll_of_some hp]
      refine List.Pairwise.cons ?_ (ih rest.length (by omega) rest rfl hrinv)
      intro z hz
      have hzrest : z ∈ rest :=
        (popAll_perm rest.length rest rfl hrinv).mem_iff.mp hz
      have hzheap : z ∈ heap := hrperm.mem_iff.mp (List.mem_cons_of_mem e hzrest)
      exact hmin z hzheap

/-!
Embedding of `Scheduler.call_later` (`build_your_own_async/async_sched.py`,
also `Scheduler.sleep` in the coroutine variants): increment the sequence
counter, then push `(deadline, sequence, func)` onto the `sleeping` heap.
`deadline = time.monotonic() + delay` is modelled as an arbitrary `Nat`
argument since only comparisons between deadlines matter.
-/

/-- The timer-related state of `Scheduler`: the `sleeping` heap and the
monotonic `sequence` tie-breaker. -/
structure SchedTimers (τ : Type) where
  sleeping : List (TimerEntry τ)
  sequence : Nat

/-- Embedding of `Scheduler.call_later(delay, func)` with the computed
deadline passed directly. -/
def call_later {τ : Type} [Inhabited τ] (deadline : Nat) (func : τ)
    (st : SchedTimers τ) : SchedTimers τ :=
  { sleeping := heappush st.sleeping ⟨deadline, st.sequence + 1, func⟩
    sequence := st.sequence + 1 }

/-- Scheduling a whole list of `(deadline, func)` requests in order. -/
def scheduleAll {τ : Type} [Inhabited τ] (ps : List (Nat × τ))
    (st : SchedTimers τ) : SchedTimers τ :=
  ps.foldl (fun s p => call_later p.1 p.2 s) st

/-- The timer entries created by `scheduleAll` when the counter starts at
`s0`: the i-th request receives sequence number `s0 + i + 1`. -/
def scheduledEntries {τ : Type} : List (Nat × τ) → Nat → List (TimerEntry τ)
  | [], _ => []
  | (d, t) :: ps, s0 => ⟨d, s0 + 1, t⟩ :: scheduledEntries ps (s0 + 1)

theorem scheduleAll_inv {τ : Type} [Inhabited τ] :
    ∀ (ps : List (Nat × τ)) (st : SchedTimers τ), HeapInv st.sleeping →
      HeapInv (scheduleAll ps st).sleeping := by
  intro ps
  induction ps with
  | nil => intro st h; exact h
  | cons p ps ih =>
    intro st h
    exact ih (call_later p.1 p.2 st) (heappush_inv h)

theorem scheduleAll_perm {τ : Type} [Inhabited τ] [DecidableEq τ] :
    ∀ (ps : List (Nat × τ)) (st : SchedTimers τ),
      (scheduleAll ps st).sleeping.Perm
        (scheduledEntries ps st.sequence ++ st.sleeping) := by
  intro ps
  induction ps with
  | nil => intro st; exact List.Perm.refl _
  | cons p ps ih =>
    intro st
    obtain ⟨d, t⟩ := p
    have h1 := ih (call_later d t st)
    have h2 : (scheduledEntries ps (st.sequence + 1) ++
        (call_later d t st).sleeping).Perm
        (scheduledEntries ps (st.sequence + 1) ++
          (⟨d, st.sequence + 1, t⟩ :: st.sleeping)) :=
      List.Perm.append_left _ (heappush_perm st.sleeping ⟨d, st.sequence + 1, t⟩)
    refine (h1.trans h2).trans ?_
    exact List.perm_middle

theorem scheduledEntries_seq_mono {τ : Type} :
    ∀ (ps : List (Nat × τ)) (s0 : Nat),
      (∀ e ∈ scheduledEntries ps s0, s0 < e.seq) ∧
      List.Pairwise (fun a b : TimerEntry τ => a.seq < b.seq)
        (scheduledEntries ps s0) := by
  intro ps
  induction ps with
  | nil => intro s0; exact ⟨fun e he => absurd he (List.not_mem_nil e), List.Pairwise.nil⟩
  | cons p ps ih =>
    intro s0
    obtain ⟨d, t⟩ := p
    obtain ⟨ihmem, ihpw⟩ := ih (s0 + 1)
    constructor
    · intro e he
      rcases List.mem_cons.mp he with rfl | hmem
      · exact Nat.lt_succ_self s0
      · have := ihmem e hmem
        omega
    · refine List.Pairwise.cons ?_ ihpw
      intro e he
      have := ihmem e he
      show s0 + 1 < e.seq
      omega

theorem HeapInv_nil {τ : Type} [Inhabited τ] : HeapInv ([] : List (TimerEntry τ)) := by
  intro i hi hilen
  simp at hilen

/-- Claim C2: for any list of `(deadline, func)` requests issued through
`call_later` from the initial scheduler state, popping the `sleeping` heap to
exhaustion resumes every scheduled task exactly once (permutation), in
strictly increasing `(deadline, sequence)` order — hence in nondecreasing
deadline order with equal deadlines resumed in original scheduling order —
and the monotonic sequence counter makes all heap keys pairwise distinct. -/
theorem claim_C2_timer_resume_order {τ : Type} [Inhabited τ] [DecidableEq τ]
    (ps : List (Nat × τ)) :
    (popAll (scheduleAll ps ⟨[], 0⟩).sleeping).Perm (scheduledEntries ps 0) ∧
    List.Pairwise keyLt (popAll (scheduleAll ps ⟨[], 0⟩).sleeping) ∧
    List.Pairwise (fun a b : TimerEntry τ => a.deadline ≤ b.deadline)
      (popAll (scheduleAll ps ⟨[], 0⟩).sleeping) ∧
    List.Pairwise
      (fun a b : TimerEntry τ => a.deadline = b.deadline → a.seq < b.seq)
      (popAll (scheduleAll ps ⟨[], 0⟩).sleeping) ∧
    List.Pairwise (fun a b : TimerEntry τ => a.seq ≠ b.seq)
      (scheduleAll ps ⟨[], 0⟩).sleeping := by
  have hinv : HeapInv (scheduleAll ps ⟨[], 0⟩).sleeping :=
    scheduleAll_inv ps ⟨[], 0⟩ HeapInv_nil
  have hperm_heap : (scheduleAll ps ⟨[], 0⟩).sleeping.Perm
      (scheduledEntries ps 0) := by
    have := scheduleAll_perm ps (⟨[], 0⟩ : SchedTimers τ)
    simpa using this
  have horder : (popAll (scheduleAll ps ⟨[], 0⟩).sleeping).Perm
      (scheduledEntries ps 0) :=
    (popAll_perm _ _ rfl hinv).trans hperm_heap
  have hsorted : List.Pairwise keyLe (popAll (scheduleAll ps ⟨[], 0⟩).sleeping) :=
    popAll_sorted _ _ rfl hinv
  have hseq_sched : List.Pairwise (fun a b : TimerEntry τ => a.seq ≠ b.seq)
      (scheduledEntries ps 0) :=
    (scheduledEntries_seq_mono ps 0).2.imp Nat.ne_of_lt
  have hsymm : ∀ {a b : TimerEntry τ}, a.seq ≠ b.seq → b.seq ≠ a.seq :=
    fun h => Ne.symm h
  have hseq_order : List.Pairwise (fun a b : TimerEntry τ => a.seq ≠ b.seq)
      (popAll (scheduleAll ps ⟨[], 0⟩).sleeping) :=
    (List.Perm.pairwise_iff hsymm horder).mpr hseq_sched
  have hstrict : List.Pairwise keyLt (popAll (scheduleAll ps ⟨[], 0⟩).sleeping) :=
    List.Pairwise.imp₂ (fun a b h1 h2 => keyLt_of_keyLe_of_ne h1 (Or.inr h2))
      hsorted hseq_order
  refine ⟨horder, hstrict, ?_, ?_, ?_⟩
  · exact hstrict.imp (fun h => by unfold keyLt at h; omega)
  · exact hstrict.imp (fun h heq => by unfold keyLt at h; omega)
  · exact (List.Perm.pairwise_iff hsymm hperm_heap).mpr hseq_sched

theorem heappop_fst {τ : Type} [Inhabited τ] {top : TimerEntry τ}
    {rest' rest : List (TimerEntry τ)} {e : TimerEntry τ}
    (hp : heappop (top :: rest') = some (e, rest)) : e = top := by
  match rest' with
  | [] =>
    simp only [heappop, Option.some.injEq, Prod.mk.injEq] at hp
    exact hp.1.symm
  | y :: ys =>
    simp only [heappop, Option.some.injEq, Prod.mk.injEq] at hp
    exact hp.1.symm

/-!
Embedding of the timer-drain step of `Scheduler.run` in `async_io/async_io.py`
(lines 100-106): after the `select` call returns,

    now = time.monotonic()
    while self.sleeping:
        if now > self.sleeping[0][0]:
            self.ready.append(heapq.heappop(self.sleeping)[2])
        else:
            break

Note the comparison is strict: an entry whose deadline equals `now` stays. -/
def drainTimers {τ : Type} [Inhabited τ] (now : Nat)
    (sleeping : List (TimerEntry τ)) (ready : List τ) :
    List (TimerEntry τ) × List τ :=
  match sleeping with
  | [] => ([], ready)
  | top :: rest' =>
    if top.deadline < now then
      match hp : heappop (top :: rest') with
      | some er => drainTimers now er.2 (ready ++ [er.1.task])
      | none => (top :: rest', ready)
    else (top :: rest', ready)
termination_by sleeping.length
decreasing_by
  have := heappop_length hp
  simp only [List.length_cons] at this ⊢
  omega

theorem drainTimers_stop {τ : Type} [Inhabited τ] (now : Nat)
    (top : TimerEntry τ) (rest' : List (TimerEntry τ)) (ready : List τ)
    (h : ¬ top.deadline < now) :
    drainTimers now (top :: rest') ready = (top :: rest', ready) := by
  rw [drainTimers, if_neg h]

theorem drainTimers_step {τ : Type} [Inhabited τ] {now : Nat}
    {top e : TimerEntry τ} {rest' rest : List (TimerEntry τ)} (ready : List τ)
    (h : top.deadline < now) (hp : heappop (top :: rest') = some (e, rest)) :
    drainTimers now (top :: rest') ready
      = drainTimers now rest (ready ++ [e.task]) := by
  rw [drainTimers, if_pos h]
  split
  · rename_i er heq
    rw [hp] at heq
    cases heq
    rfl
  · rename_i heq
    rw [hp] at heq
    cases heq

/-- Claim C4 (amended): after the multiplex call, the drain loop pops exactly
the timers whose deadline is STRICTLY below the current time, appending their
tasks to `ready` in heap (sorted) order; every entry with `deadline ≥ now` —
including one with `deadline = now` — remains on the heap, which stays valid.
The original claim's boundary case `deadline = now` is refuted separately. -/
theorem claim_C4_timer_drain {τ : Type} [Inhabited τ] [DecidableEq τ] :
    ∀ (n : Nat) (sleeping : List (TimerEntry τ)) (now : Nat) (ready : List τ),
      sleeping.length = n → HeapInv sleeping →
      ∃ popped : List (TimerEntry τ),
        (drainTimers now sleeping ready).2 = ready ++ popped.map (·.task) ∧
        (∀ e ∈ popped, e.deadline < now) ∧
        (∀ e ∈ (drainTimers now sleeping ready).1, now ≤ e.deadline) ∧
        (popped ++ (drainTimers now sleeping ready).1).Perm sleeping ∧
        List.Pairwise keyLe popped ∧
        HeapInv (drainTimers now sleeping ready).1 := by
  intro n
  induction n using Nat.strong_induction_on with
  | _ n ih =>
    intro sleeping now ready hn hinv
    match sleeping, hn with
    | [], _ =>
      refine ⟨[], by simp [drainTimers], ?_, ?_, ?_, List.Pairwise.nil, ?_⟩
      · intro e he
        simp at he
      · intro e he
        simp [drainTimers] at he
      · simp [drainTimers]
      · simp only [drainTimers]
        exact HeapInv_nil
    | top :: rest', hn2 =>
      by_cases hlt : top.deadline < now
      case neg =>
        rw [drainTimers_stop now top rest' ready hlt]
        refine ⟨[], by simp, ?_, ?_, by simp, List.Pairwise.nil, hinv⟩
        · intro e he
          simp at he
        · intro e he
          have hroot : ((top :: rest').getD 0 default) = top := by simp
          have := heapRoot_min_mem hinv e he
          rw [hroot] at this
          unfold keyLe keyLt at this
          omega
      case pos =>
        cases hp : heappop (top :: rest') with
        | none =>
          exact absurd (heappop_none_iff.mp hp) (List.cons_ne_nil top rest')
        | some er =>
          obtain ⟨e, rest⟩ := er
          have hetop : e = top := heappop_fst hp
          obtain ⟨hrinv, hrperm, hmin⟩ := heappop_spec hinv hp
          have hlen := heappop_length hp
          rw [drainTimers_step ready hlt hp]
          obtain ⟨popped', h1, h2, h3, h4, h5, h6⟩ :=
            ih rest.length (by omega) rest now (ready ++ [e.task])
              rfl hrinv
          refine ⟨e :: popped', ?_, ?_, h3, ?_, ?_, h6⟩
          · rw [h1]
            simp
          · intro z hz
            rcases List.mem_cons.mp hz with heq | hmem
            · rw [heq, hetop]
              exact hlt
            · exact h2 z hmem
          · refine List.Perm.trans ?_ hrperm
            exact List.Perm.cons e h4
          · refine List.Pairwise.cons ?_ h5
            intro z hz
            have hzrest : z ∈ rest := by
              have := h4.mem_iff.mp (List.mem_append_left _ hz)
              exact this
            exact hmin z (hrperm.mem_iff.mp (List.mem_cons_of_mem e hzrest))

/-- Counterexample to claim C4 as stated: with current time 5, a timer whose
deadline is exactly 5 (so `deadline ≤ now`) is NOT popped into `ready` — the
drain loop uses the strict comparison `now > deadline` and leaves it on the
heap with `ready` unchanged. -/
theorem claim_C4_counterexample :
    drainTimers 5 [(⟨5, 1, 0⟩ : TimerEntry Nat)] ([] : List Nat)
      = ([⟨5, 1, 0⟩], []) ∧
    (⟨5, 1, 0⟩ : TimerEntry Nat).deadline ≤ 5 := by
  constructor
  · exact drainTimers_stop 5 ⟨5, 1, 0⟩ [] [] (by decide)
  · decide

theorem claim_C4_timer_drain_witness :
    ∃ popped : List (TimerEntry Nat),
      (drainTimers 5 [(⟨3, 1, 7⟩ : TimerEntry Nat)] ([] : List Nat)).2
        = [] ++ popped.map (·.task) ∧
      (∀ e ∈ popped, e.deadline < 5) ∧
      (∀ e ∈ (drainTimers 5 [(⟨3, 1, 7⟩ : TimerEntry Nat)] ([] : List Nat)).1,
        5 ≤ e.deadline) ∧
      (popped ++ (drainTimers 5 [(⟨3, 1, 7⟩ : TimerEntry Nat)]
        ([] : List Nat)).1).Perm [⟨3, 1, 7⟩] ∧
      List.Pairwise keyLe popped ∧
      HeapInv (drainTimers 5 [(⟨3, 1, 7⟩ : TimerEntry Nat)] ([] : List Nat)).1 :=
  claim_C4_timer_drain 1 [⟨3, 1, 7⟩] 5 []
    rfl (fun i hi hilen => absurd hilen (by simp; omega))

/-!
Embedding of the waiter maps of `async_io/async_io.py`.  `read_waiting` /
`write_waiting` are Python dictionaries mapping a file descriptor to the
waiting task; `read_wait` / `write_wait` (lines 50-56) are bare dictionary
assignments `self.read_waiting[fileno] = func` with no duplicate check.
-/

/-- Python dict assignment `d[k] = v` on an insertion-ordered association
list: replace the value in place if the key exists, else append. -/
def dictSet {β : Type} (m : List (Nat × β)) (k : Nat) (v : β) : List (Nat × β) :=
  match m with
  | [] => [(k, v)]
  | (k', v') :: rest =>
    if k' = k then (k', v) :: rest else (k', v') :: dictSet rest k v

/-- Python dict lookup `d.get(k)`. -/
def dictGet? {β : Type} (m : List (Nat × β)) (k : Nat) : Option β :=
  match m with
  | [] => none
  | (k', v') :: rest => if k' = k then some v' else dictGet? rest k

/-- Embedding of `Scheduler.read_wait(fileno, func)`: record `func` as the
reader of `fileno` by plain dict assignment. -/
def read_wait {β : Type} (fileno : Nat) (func : β)
    (read_waiting : List (Nat × β)) : List (Nat × β) :=
  dictSet read_waiting fileno func

/-- Embedding of `Scheduler.write_wait(fileno, func)`: record `func` as the
writer of `fileno` by plain dict assignment. -/
def write_wait {β : Type} (fileno : Nat) (func : β)
    (write_waiting : List (Nat × β)) : List (Nat × β) :=
  dictSet write_waiting fileno func

theorem dictGet?_dictSet_self {β : Type} (m : List (Nat × β)) (k : Nat) (v : β) :
    dictGet? (dictSet m k v) k = some v := by
  induction m with
  | nil => simp [dictSet, dictGet?]
  | cons p rest ih =>
    obtain ⟨k', v'⟩ := p
    by_cases h : k' = k
    · simp [dictSet, dictGet?, h]
    · simp [dictSet, dictGet?, h, ih]

theorem dictGet?_dictSet_other {β : Type} (m : List (Nat × β)) (k k' : Nat)
    (v : β) (hne : k ≠ k') :
    dictGet? (dictSet m k v) k' = dictGet? m k' := by
  induction m with
  | nil => simp [dictSet, dictGet?, hne]
  | cons p rest ih =>
    obtain ⟨k0, v0⟩ := p
    by_cases h : k0 = k
    · subst h
      simp [dictSet, dictGet?, hne]
    · simp [dictSet, dictGet?, h, ih]

/-- Claim C5 (amended): `read_wait` / `write_wait` always succeed — they are
bare dictionary assignments with no duplicate-waiter check, so registering a
descriptor that already has a waiter in the same direction silently replaces
the existing waiter (no `DuplicateWaiterError` exists in the code); waiters
on other descriptors are untouched. -/
theorem claim_C5_wait_registration {β : Type} (fileno : Nat) (func : β)
    (m : List (Nat × β)) :
    dictGet? (read_wait fileno func m) fileno = some func ∧
    dictGet? (write_wait fileno func m) fileno = some func ∧
    (∀ fd, fd ≠ fileno →
      dictGet? (read_wait fileno func m) fd = dictGet? m fd ∧
      dictGet? (write_wait fileno func m) fd = dictGet? m fd) := by
  refine ⟨dictGet?_dictSet_self m fileno func,
    dictGet?_dictSet_self m fileno func, ?_⟩
  intro fd hne
  exact ⟨dictGet?_dictSet_other m fileno fd func (Ne.symm hne),
    dictGet?_dictSet_other m fileno fd func (Ne.symm hne)⟩

/-- Counterexample to claim C5 as stated: registering a read waiter for
descriptor 3, which already has waiter 10, does not fail — it returns the map
with the old waiter silently replaced by the new one. -/
theorem claim_C5_counterexample :
    read_wait 3 (99 : Nat) [(3, 10)] = [(3, 99)] ∧
    dictGet? (read_wait 3 (99 : Nat) [(3, 10)]) 3 = some 99 ∧
    dictGet? (read_wait 3 (99 : Nat) [(3, 10)]) 3 ≠ some 10 := by
  refine ⟨rfl, rfl, ?_⟩
  decide

/-!
Embedding of the ready-queue drain loop shared by
`build_your_own_async/async_sched.py` (lines 42-44) and
`async_io/async_io.py` (lines 108-111):

    while self.ready:
        func = self.ready.popleft()
        func()

A callback is modelled by the finite tree of further callbacks it passes to
`call_soon` (append to `ready`) during its own single invocation.
-/

/-- A `call_soon` callback: `node i spawns` is observed as step `i` and
appends the callbacks `spawns` to `ready`, in order, when invoked. -/
inductive CbTask where
  | node : Nat → List CbTask → CbTask

/-- The observable identity of a callback's step. -/
def CbTask.taskId : CbTask → Nat
  | node i _ => i

/-- The callbacks a callback schedules via `call_soon` during its step. -/
def CbTask.spawns : CbTask → List CbTask
  | node _ s => s

/-- Total number of steps a callback tree will ever execute. -/
def CbTask.size : CbTask → Nat
  | .node _ spawns => 1 + (spawns.attach.map (fun x => CbTask.size x.1)).sum
termination_by t => sizeOf t
decreasing_by
  have := List.sizeOf_lt_of_mem x.2
  simp only [CbTask.node.sizeOf_spec]
  omega

theorem CbTask.size_node (i : Nat) (s : List CbTask) :
    CbTask.size (.node i s) = 1 + (s.map CbTask.size).sum := by
  rw [CbTask.size]
  congr 1
  rw [List.map_attach]
  simp

/-- The order in which the drain loop executes steps: pop the front of
`ready`, run it (recording its id), append what it spawned, repeat until
`ready` is empty. -/
def drainOrder (q : List CbTask) : List Nat :=
  match q with
  | [] => []
  | t :: rest => t.taskId :: drainOrder (rest ++ t.spawns)
termination_by (q.map CbTask.size).sum
decreasing_by
  simp only [List.map_append, List.sum_append, List.map_cons, List.sum_cons]
  cases t with
  | node i s => rw [CbTask.spawns, CbTask.size_node]; omega

theorem drainOrder_cons (t : CbTask) (rest : List CbTask) :
    drainOrder (t :: rest) = t.taskId :: drainOrder (rest ++ t.spawns) := by
  rw [drainOrder]

theorem drainOrder_prefix : ∀ (ts q : List CbTask),
    drainOrder (ts ++ q)
      = ts.map CbTask.taskId
        ++ drainOrder (q ++ (ts.map CbTask.spawns).flatten) := by
  intro ts
  induction ts with
  | nil => intro q; simp
  | cons t ts' ih =>
    intro q
    rw [List.cons_append, drainOrder_cons, List.append_assoc, ih (q ++ t.spawns)]
    simp [List.append_assoc]

/-- Claim C6: whatever set of callbacks is in `ready` when a drain begins
runs exactly one step each, in FIFO order, before any callback scheduled
during the drain runs; in particular with `ready = A :: B :: rest`, `B`'s
step precedes every step of every task `A` spawned (breadth over depth). -/
theorem claim_C6_ready_drain_breadth (A B : CbTask) (rest : List CbTask) :
    drainOrder (A :: B :: rest)
      = A.taskId :: B.taskId :: rest.map CbTask.taskId
        ++ drainOrder (((A :: B :: rest).map CbTask.spawns).flatten) ∧
    (∀ ts : List CbTask, drainOrder ts
      = ts.map CbTask.taskId ++ drainOrder ((ts.map CbTask.spawns).flatten)) := by
  constructor
  · have h := drainOrder_prefix (A :: B :: rest) []
    simpa using h
  · intro ts
    have h := drainOrder_prefix ts []
    simpa using h

/-!
Embedding of `AsyncQueue` from `async_io/async_producer_close.py` (the
structure is identical in `async_io/async_io.py` minus `closed`).  Payloads
and coroutines are modelled as `Nat` identifiers; the scheduler state a queue
operation touches is the `ready` deque it appends rescheduled getters to and
the `current` coroutine slot.
-/

/-- The fields of `AsyncQueue.__init__`: `items`, `waiting` (FIFO of
suspended getters) and `_closed`. -/
structure AsyncQueuePC where
  items : List Nat
  waiting : List Nat
  closed : Bool
  deriving DecidableEq, Repr

/-- The `while self.waiting and not self.items` loop of `AsyncQueue.close`
(lines 102-103): move waiters to `ready` one at a time while `items` stays
empty. -/
def closeLoop : List Nat → List Nat → List Nat → List Nat × List Nat
  | [], _, ready => ([], ready)
  | w :: ws, items, ready =>
    if items.isEmpty then closeLoop ws items (ready ++ [w])
    else (w :: ws, ready)

/-- Embedding of `AsyncQueue.close` (lines 100-103): set `_closed`, then
reschedule waiting getters while no buffered items remain. -/
def AsyncQueuePC.close (q : AsyncQueuePC) (ready : List Nat) :
    AsyncQueuePC × List Nat :=
  let wr := closeLoop q.waiting q.items ready
  ({ items := q.items, waiting := wr.1, closed := true }, wr.2)

/-- Embedding of `AsyncQueue.put` (lines 105-112): raise `QueueClosed` if
closed; otherwise append the item to `items` and, if a getter is waiting,
move the earliest one to the scheduler's `ready` deque. -/
def AsyncQueuePC.put (x : Nat) (q : AsyncQueuePC) (ready : List Nat) :
    Except PyErr (AsyncQueuePC × List Nat) :=
  if q.closed then .error .queueClosed
  else
    match q.waiting with
    | [] => .ok ({ q with items := q.items ++ [x] }, ready)
    | w :: ws =>
      .ok ({ q with items := q.items ++ [x], waiting := ws }, ready ++ [w])

/-- Result of one iteration of the `while not self.items` loop of
`AsyncQueue.get` (lines 114-133): return a value, raise, or suspend the
calling coroutine (appending it to `waiting` and clearing `current`). -/
inductive GetStep where
  | ret (value : Nat) (q : AsyncQueuePC)
  | err (e : PyErr)
  | suspend (q : AsyncQueuePC)
  deriving DecidableEq, Repr

/-- Embedding of one `AsyncQueue.get` loop iteration: if `items` is
non-empty, pop the front and return it (no suspension); else if closed,
raise `QueueClosed`; else if no coroutine is being driven, raise
`RuntimeError`; else park `current` at the back of `waiting`.  A suspended
getter resumed by the scheduler re-executes exactly this iteration. -/
def AsyncQueuePC.getStep (q : AsyncQueuePC) (current : Option Nat) : GetStep :=
  match q.items with
  | v :: rest => .ret v { q with items := rest }
  | [] =>
    if q.closed then .err .queueClosed
    else
      match current with
      | none => .err .runtimeError
      | some c => .suspend { q with waiting := q.waiting ++ [c] }

/-- One queue-related action as driven by the scheduler: a `put` or `close`
from the producer's step, a fresh task's call to `get`, or the run loop
popping the front of `ready` and resuming the suspended getter there (which
re-runs its `get` loop iteration). -/
inductive QOp where
  | put (x : Nat)
  | getCall (t : Nat)
  | close
  | resume
  deriving DecidableEq, Repr

/-- Semantics of one scheduler-driven queue action on `(queue, ready)`. -/
def applyQOp (c : AsyncQueuePC × List Nat) : QOp →
    Except PyErr (AsyncQueuePC × List Nat)
  | .put x => AsyncQueuePC.put x c.1 c.2
  | .getCall t =>
    match c.1.getStep (some t) with
    | .ret _ q' => .ok (q', c.2)
    | .err e => .error e
    | .suspend q' => .ok (q', c.2)
  | .close => .ok (c.1.close c.2)
  | .resume =>
    match c.2 with
    | [] => .ok c
    | r :: rs =>
      match c.1.getStep (some r) with
      | .ret _ q' => .ok (q', rs)
      | .err e => .error e
      | .suspend q' => .ok (q', rs)

/-- Running a sequence of scheduler-driven queue actions. -/
def applyQOps : List QOp → (AsyncQueuePC × List Nat) →
    Except PyErr (AsyncQueuePC × List Nat)
  | [], c => .ok c
  | op :: ops, c =>
    match applyQOp c op with
    | .error e => .error e
    | .ok c' => applyQOps ops c'

/-- Counterexample to claim C1 as stated: the state reached from a fresh
queue by two suspending `get` calls followed by one `put` (all driven by the
scheduler) has `items = [5]` and `waiting = [2]` — `items` and the
waiting-getters queue are simultaneously non-empty, and the item was appended
to `items` rather than handed directly to the rescheduled getter. -/
theorem claim_C1_counterexample :
    applyQOps [.getCall 1, .getCall 2, .put 5]
      (⟨[], [], false⟩, ([] : List Nat)) = .ok (⟨[5], [2], false⟩, [1]) ∧
    (⟨[5], [2], false⟩ : AsyncQueuePC).items ≠ [] ∧
    (⟨[5], [2], false⟩ : AsyncQueuePC).waiting ≠ [] := by
  refine ⟨rfl, ?_, ?_⟩ <;> decide

/-- Claim C1 (amended): `put` on an open queue never performs a direct
handoff — it always appends the item to `items`, and when a getter is
waiting it additionally reschedules the earliest-waiting getter onto the
scheduler's `ready` deque (leaving `items` and the remaining `waiting` both
non-empty whenever two or more getters were waiting). -/
theorem claim_C1_put_no_handoff (q : AsyncQueuePC) (ready : List Nat)
    (x w : Nat) (ws : List Nat)
    (hclosed : q.closed = false) (hw : q.waiting = w :: ws) :
    AsyncQueuePC.put x q ready
      = .ok ({ q with items := q.items ++ [x], waiting := ws },
          ready ++ [w]) := by
  unfold AsyncQueuePC.put
  rw [hclosed, hw]
  simp

theorem claim_C1_put_no_handoff_witness :
    AsyncQueuePC.put 5 ⟨[], [1, 2], false⟩ []
      = .ok (⟨[5], [2], false⟩, [1]) := by
  have h := claim_C1_put_no_handoff ⟨[], [1, 2], false⟩ [] 5 1 [2] rfl rfl
  simpa using h

/-- Repeated `get` fast-path calls: pop items front-first while any remain,
and report the step `get` takes once the buffer is empty. -/
def getSeq (q : AsyncQueuePC) (cur : Option Nat) : List Nat × GetStep :=
  match h : q.items with
  | [] => ([], q.getStep cur)
  | v :: rest =>
    let r := getSeq { q with items := rest } cur
    (v :: r.1, r.2)
termination_by q.items.length
decreasing_by rw [h]; simp

theorem getSeq_spec (l : List Nat) :
    ∀ (w : List Nat) (cl : Bool) (cur : Option Nat),
      (getSeq ⟨l, w, cl⟩ cur).1 = l ∧
      (getSeq ⟨l, w, cl⟩ cur).2 = AsyncQueuePC.getStep ⟨[], w, cl⟩ cur := by
  induction l with
  | nil =>
    intro w cl cur
    constructor
    · rw [getSeq]
    · rw [getSeq]
  | cons v rest ih =>
    intro w cl cur
    obtain ⟨ih1, ih2⟩ := ih w cl cur
    constructor
    · rw [getSeq]
      show v :: (getSeq ⟨rest, w, cl⟩ cur).1 = v :: rest
      rw [ih1]
    · rw [getSeq]
      show (getSeq ⟨rest, w, cl⟩ cur).2 = _
      exact ih2

/-- Claim C3: after `close`, every `put` fails with `QueueClosed`; `get`
still drains buffered items in FIFO (front-first) order; once `items` is
empty a `get` on the closed queue fails immediately with `QueueClosed`.  The
concrete scenarios `put 42; close; get -> 42; get -> QueueClosed` and
`close; get -> QueueClosed` are computed explicitly. -/
theorem claim_C3_close_semantics :
    (∀ (q : AsyncQueuePC) (x : Nat) (ready : List Nat), q.closed = true →
      AsyncQueuePC.put x q ready = .error .queueClosed) ∧
    (∀ (q : AsyncQueuePC) (cur : Option Nat) (v : Nat) (rest : List Nat),
      q.items = v :: rest →
      q.getStep cur = .ret v { q with items := rest }) ∧
    (∀ (q : AsyncQueuePC) (cur : Option Nat), q.items = [] → q.closed = true →
      q.getStep cur = .err .queueClosed) ∧
    (∀ (l w : List Nat) (cur : Option Nat),
      (getSeq ⟨l, w, true⟩ cur).1 = l ∧
      (getSeq ⟨l, w, true⟩ cur).2 = .err .queueClosed) ∧
    (AsyncQueuePC.put 42 ⟨[], [], false⟩ [] = .ok (⟨[42], [], false⟩, []) ∧
     AsyncQueuePC.close ⟨[42], [], false⟩ [] = (⟨[42], [], true⟩, []) ∧
     AsyncQueuePC.getStep ⟨[42], [], true⟩ (some 1) = .ret 42 ⟨[], [], true⟩ ∧
     AsyncQueuePC.getStep ⟨[], [], true⟩ (some 1) = .err .queueClosed) ∧
    (AsyncQueuePC.close ⟨[], [], false⟩ [] = (⟨[], [], true⟩, []) ∧
     AsyncQueuePC.getStep ⟨[], [], true⟩ (some 2) = .err .queueClosed) := by
  refine ⟨?_, ?_, ?_, ?_, ⟨rfl, rfl, rfl, rfl⟩, ⟨rfl, rfl⟩⟩
  · intro q x ready hcl
    unfold AsyncQueuePC.put
    rw [hcl]
    rfl
  · intro q cur v rest hitems
    unfold AsyncQueuePC.getStep
    rw [hitems]
  · intro q cur hitems hcl
    unfold AsyncQueuePC.getStep
    rw [hitems, hcl]
    rfl
  · intro l w cur
    obtain ⟨h1, h2⟩ := getSeq_spec l w true cur
    refine ⟨h1, ?_⟩
    rw [h2]
    rfl

theorem claim_C3_close_semantics_witness :
    AsyncQueuePC.put 7 ⟨[9], [], true⟩ [] = .error .queueClosed ∧
    AsyncQueuePC.getStep ⟨[8, 9], [], true⟩ none = .ret 8 ⟨[9], [], true⟩ ∧
    AsyncQueuePC.getStep ⟨[], [3], true⟩ (some 4) = .err .queueClosed ∧
    (getSeq ⟨[1, 2], [], true⟩ none).1 = [1, 2] := by
  refine ⟨claim_C3_close_semantics.1 ⟨[9], [], true⟩ 7 [] rfl, ?_, ?_, ?_⟩
  · exact claim_C3_close_semantics.2.1 ⟨[8, 9], [], true⟩ none 8 [9] rfl
  · exact claim_C3_close_semantics.2.2.1 ⟨[], [3], true⟩ (some 4) rfl rfl
  · exact (claim_C3_close_semantics.2.2.2.1 [1, 2] [] none).1

/-!
Embedding of `Scheduler.sleep` in its two variants.  The scheduler state
carries `ready`, the `sleeping` heap, the `current` coroutine slot and the
`sequence` counter; `now` stands for `time.monotonic()`.
-/

/-- Scheduler state shared by `async_io/async_producer_close.py` and
`async_io/async.py`. -/
structure SchedPC where
  ready : List Nat
  sleeping : List (TimerEntry Nat)
  current : Option Nat
  sequence : Nat
  deriving DecidableEq, Repr

/-- Embedding of `Scheduler.sleep` from `async_io/async_producer_close.py`
(lines 23-33): raise `RuntimeError` when no coroutine is being driven;
otherwise push `(now + delay, sequence + 1, current)` onto the sleeping heap
and clear `current`. -/
def SchedPC.sleep (delay now : Nat) (s : SchedPC) : Except PyErr SchedPC :=
  match s.current with
  | none => .error .runtimeError
  | some c =>
    .ok { s with
      sleeping := heappush s.sleeping ⟨now + delay, s.sequence + 1, c⟩
      sequence := s.sequence + 1
      current := none }

/-- Embedding of `Scheduler.sleep` from `async_io/async.py` (lines 19-29):
identical except that with `current is None` it silently returns instead of
raising. -/
def SchedPC.sleepSilent (delay now : Nat) (s : SchedPC) : Except PyErr SchedPC :=
  match s.current with
  | none => .ok s
  | some c =>
    .ok { s with
      sleeping := heappush s.sleeping ⟨now + delay, s.sequence + 1, c⟩
      sequence := s.sequence + 1
      current := none }

/-- Counterexample to claim C9 as stated: the `async.py` variant of `sleep`,
invoked while no task is being driven (`current is None`), silently returns
with the scheduler unchanged instead of failing with a misuse error. -/
theorem claim_C9_counterexample :
    SchedPC.sleepSilent 1 0 ⟨[], [], none, 0⟩ = .ok ⟨[], [], none, 0⟩ ∧
    SchedPC.sleepSilent 1 0 ⟨[], [], none, 0⟩ ≠ .error .runtimeError := by
  refine ⟨rfl, ?_⟩
  intro h
  rw [show SchedPC.sleepSilent 1 0 ⟨[], [], none, 0⟩
    = .ok ⟨[], [], none, 0⟩ from rfl] at h
  cases h

/-- Claim C9 (amended): in `async_producer_close.py` the blocking primitives
do guard against misuse — `sleep` raises `RuntimeError` when `current` is
`None`, as does the suspending branch of `AsyncQueue.get`; but the `async.py`
variant of `sleep` silently returns (no error) in the same situation. -/
theorem claim_C9_misuse_guard :
    (∀ (delay now : Nat) (s : SchedPC), s.current = none →
      SchedPC.sleep delay now s = .error .runtimeError) ∧
    (∀ q : AsyncQueuePC, q.items = [] → q.closed = false →
      q.getStep none = .err .runtimeError) ∧
    (∀ (delay now : Nat) (s : SchedPC), s.current = none →
      SchedPC.sleepSilent delay now s = .ok s) := by
  refine ⟨?_, ?_, ?_⟩
  · intro delay now s hcur
    unfold SchedPC.sleep
    rw [hcur]
  · intro q hitems hcl
    unfold AsyncQueuePC.getStep
    rw [hitems, hcl]
    rfl
  · intro delay now s hcur
    unfold SchedPC.sleepSilent
    rw [hcur]

theorem claim_C9_misuse_guard_witness :
    SchedPC.sleep 1 0 ⟨[], [], none, 0⟩ = .error .runtimeError ∧
    AsyncQueuePC.getStep ⟨[], [], false⟩ none = .err .runtimeError ∧
    SchedPC.sleepSilent 2 3 ⟨[7], [], none, 4⟩ = .ok ⟨[7], [], none, 4⟩ := by
  refine ⟨claim_C9_misuse_guard.1 1 0 ⟨[], [], none, 0⟩ rfl,
    claim_C9_misuse_guard.2.1 ⟨[], [], false⟩ rfl rfl,
    claim_C9_misuse_guard.2.2 2 3 ⟨[7], [], none, 4⟩ rfl⟩

/-!
Embedding of `AsyncQueue` from `build_your_own_async/async_producer.py`
(structurally identical in `async_io/async_io.py`): no `closed` flag, and
`get` uses `if not self.items` — not `while` — before suspending, followed by
an UNCONDITIONAL `self.items.popleft()` after resumption.
-/

/-- The fields of the no-close `AsyncQueue`. -/
structure AsyncQueueP where
  items : List Nat
  waiting : List Nat
  deriving DecidableEq, Repr

/-- Embedding of `AsyncQueue.put` (async_producer.py lines 81-85): append the
item to `items`; if a getter is waiting, move the earliest one to `ready`. -/
def AsyncQueueP.put (x : Nat) (q : AsyncQueueP) (ready : List Nat) :
    AsyncQueueP × List Nat :=
  match q.waiting with
  | [] => ({ q with items := q.items ++ [x] }, ready)
  | w :: ws =>
    ({ items := q.items ++ [x], waiting := ws }, ready ++ [w])

/-- The entry behaviour of `AsyncQueue.get` (async_producer.py lines 87-97):
silently return when no coroutine is being driven; take the non-suspending
fast path when `items` is non-empty; otherwise park `current` in `waiting`. -/
inductive GetStepP where
  | retNone
  | ret (value : Nat) (q : AsyncQueueP)
  | suspend (q : AsyncQueueP)
  deriving DecidableEq, Repr

/-- Embedding of the pre-suspension part of `AsyncQueue.get`. -/
def AsyncQueueP.getStart (q : AsyncQueueP) (current : Option Nat) : GetStepP :=
  match current with
  | none => .retNone
  | some c =>
    match q.items with
    | [] => .suspend { q with waiting := q.waiting ++ [c] }
    | v :: rest => .ret v { q with items := rest }

/-- Embedding of the code a suspended getter runs when resumed — line 99,
`return self.items.popleft()`: an unconditional pop that raises `IndexError`
on an empty deque. -/
def AsyncQueueP.getResume (q : AsyncQueueP) : Except PyErr (Nat × AsyncQueueP) :=
  match popleft? q.items with
  | none => .error .indexError
  | some vr => .ok (vr.1, { q with items := vr.2 })

/-- One scheduler-driven action on the no-close queue: a producer `put`, a
fresh task calling `get`, or the run loop popping the front of `ready` and
resuming the suspended getter parked there (which runs the unconditional
pop). -/
inductive POp where
  | put (x : Nat)
  | getCall (t : Nat)
  | resume
  deriving DecidableEq, Repr

/-- Semantics of one action on `(queue, ready)`. -/
def applyPOp (c : AsyncQueueP × List Nat) : POp →
    Except PyErr (AsyncQueueP × List Nat)
  | .put x => .ok (AsyncQueueP.put x c.1 c.2)
  | .getCall t =>
    match c.1.getStart (some t) with
    | .retNone => .ok c
    | .ret _ q' => .ok (q', c.2)
    | .suspend q' => .ok (q', c.2)
  | .resume =>
    match c.2 with
    | [] => .ok c
    | _ :: rs =>
      match c.1.getResume with
      | .error e => .error e
      | .ok vq => .ok (vq.2, rs)

/-- Running a sequence of actions on the no-close queue. -/
def applyPOps : List POp → (AsyncQueueP × List Nat) →
    Except PyErr (AsyncQueueP × List Nat)
  | [], c => .ok c
  | op :: ops, c =>
    match applyPOp c op with
    | .error e => .error e
    | .ok c' => applyPOps ops c'

/-- Counterexample to claim C10 as stated: getter 1 suspends on the empty
queue; `put 5` buffers the item and reschedules getter 1; getter 2's
non-suspending fast path then steals the item; when getter 1 is finally
resumed, `items` is empty and its unconditional `popleft` raises
`IndexError`. -/
theorem claim_C10_counterexample :
    applyPOps [.getCall 1, .put 5, .getCall 2, .resume]
      ((⟨[], []⟩ : AsyncQueueP), ([] : List Nat)) = .error .indexError := by
  rfl

theorem AsyncQueueP.put_items_ne_nil (x : Nat) (q : AsyncQueueP)
    (ready : List Nat) : (AsyncQueueP.put x q ready).1.items ≠ [] := by
  unfold AsyncQueueP.put
  match q.waiting with
  | [] => simp
  | w :: ws => simp

theorem applyPOps_puts_only :
    ∀ (ops : List POp) (c : AsyncQueueP × List Nat),
      (∀ o ∈ ops, ∃ y, o = POp.put y) → c.1.items ≠ [] →
      ∃ c', applyPOps ops c = .ok c' ∧ c'.1.items ≠ [] := by
  intro ops
  induction ops with
  | nil =>
    intro c _ hne
    exact ⟨c, rfl, hne⟩
  | cons op ops ih =>
    intro c hops hne
    obtain ⟨y, rfl⟩ := hops op (List.mem_cons_self op ops)
    have hstep : applyPOp c (POp.put y) = .ok (AsyncQueueP.put y c.1 c.2) := rfl
    have hne' : (AsyncQueueP.put y c.1 c.2).1.items ≠ [] :=
      AsyncQueueP.put_items_ne_nil y c.1 c.2
    obtain ⟨c', hrun, hne''⟩ :=
      ih (AsyncQueueP.put y c.1 c.2) (fun o ho => hops o (List.mem_cons_of_mem _ ho)) hne'
    refine ⟨c', ?_, hne''⟩
    rw [applyPOps, hstep]
    exact hrun

/-- Claim C10 (amended): if between a `put` and the resumption of the getter
it rescheduled only further `put` actions occur (no other getter runs its
fast path), then `items` is non-empty at the moment of resumption and the
resumed getter's unconditional `popleft` succeeds.  The unrestricted claim —
covering interleavings where another getter's fast path runs in between — is
refuted by the counterexample. -/
theorem claim_C10_resume_pop_safe (q : AsyncQueueP) (ready : List Nat)
    (x : Nat) (ops : List POp)
    (hops : ∀ o ∈ ops, ∃ y, o = POp.put y) :
    ∃ c', applyPOps ops (AsyncQueueP.put x q ready) = .ok c' ∧
      c'.1.items ≠ [] ∧
      ∃ v q', c'.1.getResume = .ok (v, q') := by
  obtain ⟨c', hrun, hne⟩ :=
    applyPOps_puts_only ops (AsyncQueueP.put x q ready) hops
      (AsyncQueueP.put_items_ne_nil x q ready)
  refine ⟨c', hrun, hne, ?_⟩
  match hit : c'.1.items with
  | [] => exact absurd hit hne
  | v :: rest =>
    refine ⟨v, { c'.1 with items := rest }, ?_⟩
    unfold AsyncQueueP.getResume
    rw [hit]
    rfl

theorem claim_C10_resume_pop_safe_witness :
    ∃ c', applyPOps [POp.put 7]
        (AsyncQueueP.put 5 ⟨[], [1]⟩ []) = .ok c' ∧
      c'.1.items ≠ [] ∧
      ∃ v q', c'.1.getResume = .ok (v, q') :=
  claim_C10_resume_pop_safe ⟨[], [1]⟩ [] 5 [POp.put 7]
    (by intro o ho; simp at ho; exact ⟨7, ho⟩)

/-!
Embedding of task driving and the full run loop of `async_io/async_io.py`.
A coroutine is modelled by its script: the sequence of observable outcomes of
successive `send(None)` calls.  Each send either returns after a yield
(`yld clear`, where `clear` records whether the body cleared `sched.current`
before yielding, as `sleep` / `get` / the socket awaits do), or raises an
exception (`err e`); an exhausted script raises `StopIteration`, the normal
completion signal.  `Task.__call__` (lines 142-152) catches only
`StopIteration` and re-appends the task to `ready` when `current` survived
the step; every other exception escapes into `run` and out of it.
-/

/-- One observable outcome of advancing a coroutine. -/
inductive CoroStep where
  | yld (clear : Bool)
  | err (e : Nat)
  deriving DecidableEq, Repr

/-- The inner drain loop of `Scheduler.run` (lines 108-111): pop the front of
`ready` and invoke it until `ready` is empty, counting the steps executed;
an exception raised by a step aborts the loop and propagates. -/
def drain : List (List CoroStep) → Except Nat Nat
  | [] => .ok 0
  | [] :: rest => (drain rest).map (· + 1)
  | (CoroStep.yld true :: _) :: rest => (drain rest).map (· + 1)
  | (CoroStep.yld false :: srest) :: rest => (drain (rest ++ [srest])).map (· + 1)
  | (CoroStep.err e :: _) :: _ => .error e
termination_by ts => (ts.map (fun s => s.length + 1)).sum
decreasing_by
  · simp only [List.map_cons, List.sum_cons]
    omega
  · simp only [List.map_cons, List.sum_cons]
    omega
  · simp only [List.map_append, List.map_cons, List.sum_append, List.sum_cons,
      List.map_nil, List.sum_nil, List.length_cons]
    omega

theorem drain_err (e : Nat) (srest : List CoroStep)
    (rest : List (List CoroStep)) :
    drain ((CoroStep.err e :: srest) :: rest) = .error e := by
  rw [drain]

theorem drain_halt (rest : List (List CoroStep)) :
    drain ([] :: rest) = (drain rest).map (· + 1) := by
  rw [drain]

theorem drain_yld_true (srest : List CoroStep) (rest : List (List CoroStep)) :
    drain ((CoroStep.yld true :: srest) :: rest) = (drain rest).map (· + 1) := by
  rw [drain]

theorem drain_yld_false (srest : List CoroStep) (rest : List (List CoroStep)) :
    drain ((CoroStep.yld false :: srest) :: rest)
      = (drain (rest ++ [srest])).map (· + 1) := by
  rw [drain]

/-- Scripts whose first step raises an exception. -/
def isErrHead : List CoroStep → Bool
  | CoroStep.err _ :: _ => true
  | _ => false

/-- A drain whose queue contains a task that will raise, preceded only by
tasks whose first step does not raise, reports that exact exception. -/
theorem drain_propagates :
    ∀ (pre : List (List CoroStep)) (post : List (List CoroStep)) (e : Nat)
      (srest : List CoroStep),
      (∀ s ∈ pre, isErrHead s = false) →
      drain (pre ++ (CoroStep.err e :: srest) :: post) = .error e := by
  intro pre
  induction pre with
  | nil =>
    intro post e srest _
    exact drain_err e srest post
  | cons s pre' ih =>
    intro post e srest hpre
    have hs : isErrHead s = false := hpre s (List.mem_cons_self s pre')
    have hpre' : ∀ t ∈ pre', isErrHead t = false :=
      fun t ht => hpre t (List.mem_cons_of_mem s ht)
    match s, hs with
    | [], _ =>
      rw [List.cons_append, drain_halt, ih post e srest hpre']
      rfl
    | CoroStep.yld true :: srest', _ =>
      rw [List.cons_append, drain_yld_true, ih post e srest hpre']
      rfl
    | CoroStep.yld false :: srest', _ =>
      rw [List.cons_append, drain_yld_false]
      have hshift : (pre' ++ (CoroStep.err e :: srest) :: post) ++ [srest']
          = pre' ++ (CoroStep.err e :: srest) :: (post ++ [srest']) := by
        simp
      rw [hshift, ih (post ++ [srest']) e srest hpre']
      rfl

/-- Python dict `pop(k)` restricted to present keys: remove the entry. -/
def dictRemove {β : Type} : List (Nat × β) → Nat → List (Nat × β)
  | [], _ => []
  | (k', v) :: rest, k => if k' = k then rest else (k', v) :: dictRemove rest k

/-- Full scheduler state of `async_io/async_io.py`: the `ready` deque of task
scripts, the `sleeping` heap, the two waiter maps, and the current monotonic
time. -/
structure IOSched where
  ready : List (List CoroStep)
  sleeping : List (TimerEntry (List CoroStep))
  read_waiting : List (Nat × List CoroStep)
  write_waiting : List (Nat × List CoroStep)
  now : Nat

/-- The readiness multiplexer (`select.select`) as an external oracle: given
the polled read/write descriptors, the timeout (`none` = block forever) and
the current time, it reports ready read descriptors, ready write descriptors
and the monotonic time after it returns. -/
def Mux : Type :=
  List Nat → List Nat → Option Nat → Nat → List Nat × List Nat × Nat

/-- The `for fileno in can_read: self.ready.append(self.read_waiting.pop(fileno))`
loops (lines 95-98): move each reported waiter to `ready`, in report order.
Descriptors the multiplexer reports but the map does not hold are skipped
(`select` only reports polled descriptors). -/
def popWaiters (fds : List Nat) (m : List (Nat × List CoroStep))
    (ready : List (List CoroStep)) :
    List (Nat × List CoroStep) × List (List CoroStep) :=
  match fds with
  | [] => (m, ready)
  | fd :: rest =>
    match dictGet? m fd with
    | none => popWaiters rest m ready
    | some f => popWaiters rest (dictRemove m fd) (ready ++ [f])

/-- The blocking block of `Scheduler.run` (lines 80-106), entered when
`ready` is empty: compute the timeout from the nearest deadline (peeked, not
popped), multiplex, move reported I/O waiters to `ready`, then move every
expired timer to `ready`. -/
def selectBlock (mux : Mux) (st : IOSched) : IOSched :=
  let timeout : Option Nat :=
    match st.sleeping with
    | [] => none
    | top :: _ => some (top.deadline - st.now)
  let res := mux (st.read_waiting.map Prod.fst) (st.write_waiting.map Prod.fst)
    timeout st.now
  let r1 := popWaiters res.1 st.read_waiting st.ready
  let r2 := popWaiters res.2.1 st.write_waiting r1.2
  let dt := drainTimers res.2.2 st.sleeping r2.2
  { ready := dt.2, sleeping := dt.1, read_waiting := r1.1,
    write_waiting := r2.1, now := res.2.2 }

/-- The condition of the outer `while` of `Scheduler.run` (line 79), negated. -/
def IOSched.isDone (st : IOSched) : Bool :=
  st.ready.isEmpty && st.sleeping.isEmpty && st.read_waiting.isEmpty
    && st.write_waiting.isEmpty

/-- Embedding of `Scheduler.run` (lines 78-111), fuelled by the number of
outer-loop iterations: each iteration runs the select block when `ready` is
empty and then drains `ready` completely, accumulating the number of task
steps executed.  Returns `.error e` when a task step raises `e`, `.ok none`
when the fuel is exhausted with work remaining, and `.ok (some (st, n))`
when the loop condition turns false after `n` task steps. -/
def runLoop (mux : Mux) (fuel : Nat) (st : IOSched) :
    Except Nat (Option (IOSched × Nat)) :=
  if st.isDone then .ok (some (st, 0))
  else
    match fuel with
    | 0 => .ok none
    | fuel' + 1 =>
      let st1 := if st.ready.isEmpty then selectBlock mux st else st
      match drain st1.ready with
      | .error e => .error e
      | .ok n =>
        match runLoop mux fuel' { st1 with ready := [] } with
        | .error e => .error e
        | .ok none => .ok none
        | .ok (some fm) => .ok (some (fm.1, n + fm.2))

theorem drain_nil : drain [] = .ok 0 := by rw [drain]

theorem drain_all_halt : ∀ ts : List (List CoroStep),
    (∀ s ∈ ts, s = []) → drain ts = .ok ts.length := by
  intro ts
  induction ts with
  | nil => intro _; rw [drain_nil]; rfl
  | cons s rest ih =>
    intro h
    have hs : s = [] := h s (List.mem_cons_self s rest)
    subst hs
    rw [drain_halt, ih (fun t ht => h t (List.mem_cons_of_mem _ ht))]
    rfl

/-- One outer-loop iteration of `run` when `ready` is non-empty: the select
block is skipped and `ready` is drained. -/
theorem runLoop_ready_nonempty (mux : Mux) (fuel : Nat) (st : IOSched)
    (hne : st.ready.isEmpty = false) :
    runLoop mux (fuel + 1) st =
      match drain st.ready with
      | .error e => .error e
      | .ok n =>
        match runLoop mux fuel { st with ready := [] } with
        | .error e => .error e
        | .ok none => .ok none
        | .ok (some fm) => .ok (some (fm.1, n + fm.2)) := by
  have hdone : ¬ st.isDone = true := by
    unfold IOSched.isDone
    rw [hne]
    simp
  rw [runLoop, if_neg hdone]
  simp only [hne, Bool.false_eq_true, if_false]

/-- Claim C7: a computation-level exception raised inside a task's step is
never swallowed: the step handling catches only the normal-completion signal
(`StopIteration`), so the drain aborts with that exception and `run` reports
it to its caller.  Stated for the drain and for the full run loop: whenever
`ready` holds a task whose next step raises `e`, preceded only by tasks whose
next step does not raise, `run` returns exactly `error e`. -/
theorem claim_C7_error_propagation :
    (∀ (e : Nat) (srest : List CoroStep) (rest : List (List CoroStep)),
      drain ((CoroStep.err e :: srest) :: rest) = .error e) ∧
    (∀ (mux : Mux) (fuel : Nat) (st : IOSched)
      (pre post : List (List CoroStep)) (e : Nat) (srest : List CoroStep),
      st.ready = pre ++ (CoroStep.err e :: srest) :: post →
      (∀ s ∈ pre, isErrHead s = false) →
      runLoop mux (fuel + 1) st = .error e) := by
  refine ⟨drain_err, ?_⟩
  intro mux fuel st pre post e srest hready hpre
  have hie : st.ready.isEmpty = false := by
    rw [hready]
    cases pre <;> rfl
  rw [runLoop_ready_nonempty mux fuel st hie, hready,
    drain_propagates pre post e srest hpre]

/-- Claim C8: if every task handed to the scheduler completes on its first
step (and no timers or I/O waiters exist), `run` terminates after exactly one
drain of `ready` — one outer-loop iteration suffices — executing exactly one
step per task and leaving `ready`, the timer heap and both waiter maps
empty. -/
theorem claim_C8_immediate_completion (mux : Mux) (ts : List (List CoroStep))
    (now : Nat) (hts : ∀ s ∈ ts, s = []) :
    runLoop mux 1 ⟨ts, [], [], [], now⟩
      = .ok (some (⟨[], [], [], [], now⟩, ts.length)) := by
  cases ts with
  | nil => rfl
  | cons t ts' =>
    have hts' : ∀ s ∈ t :: ts', s = [] := hts
    rw [runLoop_ready_nonempty mux 0 ⟨t :: ts', [], [], [], now⟩ rfl]
    dsimp only
    rw [drain_all_halt (t :: ts') hts']
    rfl

theorem claim_C7_error_propagation_witness :
    drain ((CoroStep.err 7 :: []) :: []) = .error 7 ∧
    runLoop (fun _ _ _ now => ([], [], now)) 1
      ⟨[[CoroStep.yld false], [CoroStep.err 7]], [], [], [], 0⟩ = .error 7 := by
  constructor
  · exact claim_C7_error_propagation.1 7 [] []
  · exact claim_C7_error_propagation.2 (fun _ _ _ now => ([], [], now)) 0
      ⟨[[CoroStep.yld false], [CoroStep.err 7]], [], [], [], 0⟩
      [[CoroStep.yld false]] [] 7 [] rfl
      (by intro s hs; simp at hs; rw [hs]; rfl)

theorem claim_C8_immediate_completion_witness :
    runLoop (fun _ _ _ now => ([], [], now)) 1 ⟨[[], [], []], [], [], [], 5⟩
      = .ok (some (⟨[], [], [], [], 5⟩, 3)) :=
  claim_C8_immediate_completion (fun _ _ _ now => ([], [], now)) [[], [], []] 5
    (by intro s hs; simpa using hs)

theorem claim_C5_wait_registration_witness :
    dictGet? (read_wait 3 (99 : Nat) [(3, 10)]) 3 = some 99 ∧
    dictGet? (write_wait 3 (99 : Nat) [(3, 10)]) 3 = some 99 ∧
    dictGet? (read_wait 3 (99 : Nat) [(3, 10)]) 4 = dictGet? [(3, 10)] 4 := by
  have h := claim_C5_wait_registration 3 (99 : Nat) [(3, 10)]
  exact ⟨h.1, h.2.1, (h.2.2 4 (by decide)).1⟩
